import Mathlib

/-!
Verification development for the nn4dms dataset-splitting and encoding notebooks.

The repository sources available here are the two notebooks
(`dataset_splitting` and `data_encoding`); they call into the library module
`split_dataset` (aliased `sd`) and `encode` (aliased `enc`), whose Python
sources are not part of the source tree.  Following the specification, the
Split Engine and the encoder are modelled below as pure Lean functions; every
definition whose Python source is unavailable carries a doc comment starting
with `Modelled from the spec:` naming what is missing.  The notebooks' recorded
outputs (shapes, role orders, replicate orders) are treated as authoritative
observations of the real code and the model is built to agree with them.
-/

namespace Nn4dms

attribute [local semireducible] Rat.add Rat.mul Rat.inv Rat.sub Rat.ofScientific

/-- Modelled from the spec: `split_dataset.py` is absent from the sources; the
spec (§4.1) requires a pseudo-random generator seeded exactly by the integer
seed.  The generator is modelled as a 64-bit linear congruential generator
(Knuth's MMIX multiplier); the claims under verification depend only on the
generator being a deterministic function of its state. -/
def lcgNext (s : Nat) : Nat :=
  (6364136223846793005 * s + 1442695040888963407) % 18446744073709551616

/-- Modelled from the spec: seeding the module-level generator from the integer
seed argument (the collaborator calls `np.random.seed(rseed)`). -/
def rngOfSeed (rseed : Nat) : Nat :=
  lcgNext rseed

/-- The generator state after `k` further draws. -/
def advanceRng : Nat → Nat → Nat
  | s, 0 => s
  | s, k + 1 => advanceRng (lcgNext s) k

/-- Modelled from the spec: the single seeded random permutation used by the
Split Engine (§4.2 step 3), realised as a selection shuffle: at each step the
generator state picks the next element's position.  The first argument is fuel
making the recursion structural; `shuffle` supplies fuel equal to the length. -/
def shuffleFuel : Nat → Nat → List Nat → List Nat
  | 0, _, l => l
  | _ + 1, _, [] => []
  | fuel + 1, s, a :: as =>
    let i := s % (as.length + 1)
    (a :: as).getD i a :: shuffleFuel fuel (lcgNext s) ((a :: as).eraseIdx i)

/-- The seeded permutation of a list of indices. -/
def shuffle (s : Nat) (l : List Nat) : List Nat :=
  shuffleFuel l.length s l

/-- Modelled from the spec: the `round(N * size)` sample-size computation (§4.1,
§4.2 step 3).  Fractions are modelled as exact rationals; ties round half up,
an implementer's-choice point the spec leaves open (§9). -/
def roundNat (q : ℚ) : Nat :=
  (Int.floor (q + 1/2)).toNat

/-- The remaining pool `P = universe \ W` (§4.2 step 2): the index universe
`[0, n)` minus the withheld index set. -/
def pool (n : Nat) (withhold : List Nat) : List Nat :=
  (List.range n).filter (fun i => decide (i ∉ withhold))

/-- A Split: a mapping from role name to Index Set, realised as the association
list the splitter builds (the notebook shows the roles in the order
stest, tune, test, train). -/
abbrev Split := List (String × List Nat)

/-- Look a role up in a Split; an absent role denotes the empty Index Set. -/
def getRole (sp : Split) (r : String) : List Nat :=
  match sp with
  | [] => []
  | (k, v) :: rest => if k = r then v else getRole rest r

/-- The role names present in a Split. -/
def roleKeys (sp : Split) : List String :=
  sp.map Prod.fst

/-- The error vocabulary of the Split Engine (§7). -/
inductive SplitError where
  | InvalidFractions
  | AlreadyExists
  | NotFound
  | Corrupt
deriving DecidableEq

instance {ε α : Type} [DecidableEq ε] [DecidableEq α] :
    DecidableEq (Except ε α) := fun a b =>
  match a, b with
  | .error e1, .error e2 =>
    if h : e1 = e2 then .isTrue (by rw [h])
    else .isFalse (fun hc => h (Except.error.inj hc))
  | .error e1, .ok a2 => .isFalse (fun hc => Except.noConfusion hc)
  | .ok a1, .error e2 => .isFalse (fun hc => Except.noConfusion hc)
  | .ok a1, .ok a2 =>
    if h : a1 = a2 then .isTrue (by rw [h])
    else .isFalse (fun hc => h (Except.ok.inj hc))

/-- The seeded permutation of the pool used by one splitting call. -/
def permOf (n : Nat) (withhold : List Nat) (rseed : Nat) : List Nat :=
  shuffle (rngOfSeed rseed) (pool n withhold)

/-- Number of indices assigned to the tune role. -/
def nTuneOf (n : Nat) (withhold : List Nat) (tune_size : ℚ) : Nat :=
  roundNat (tune_size * (pool n withhold).length)

/-- Number of indices assigned to the test role. -/
def nTestOf (n : Nat) (withhold : List Nat) (test_size : ℚ) : Nat :=
  roundNat (test_size * (pool n withhold).length)

/-- The tune slice: the first `nTuneOf` entries of the seeded permutation. -/
def tuneIdxs (n : Nat) (withhold : List Nat) (tune_size : ℚ) (rseed : Nat) :
    List Nat :=
  (permOf n withhold rseed).take (nTuneOf n withhold tune_size)

/-- The test slice: the next `nTestOf` entries of the seeded permutation. -/
def testIdxs (n : Nat) (withhold : List Nat) (tune_size test_size : ℚ)
    (rseed : Nat) : List Nat :=
  ((permOf n withhold rseed).drop (nTuneOf n withhold tune_size)).take
    (nTestOf n withhold test_size)

/-- The train slice: everything after the tune and test slices. -/
def trainIdxs (n : Nat) (withhold : List Nat) (tune_size test_size : ℚ)
    (rseed : Nat) : List Nat :=
  ((permOf n withhold rseed).drop (nTuneOf n withhold tune_size)).drop
    (nTestOf n withhold test_size)

/-- Modelled from the spec: the roles shared by §4.2 and §4.3 — a nonempty
withheld set under role "stest" plus the tune and test slices; zero-fraction
roles are omitted from the Split. -/
def sharedRoles (n : Nat) (withhold : List Nat) (tune_size test_size : ℚ)
    (rseed : Nat) : Split :=
  (if withhold.isEmpty then [] else [("stest", withhold)]) ++
    (if tune_size = 0 then [] else
      [("tune", tuneIdxs n withhold tune_size rseed)]) ++
    (if test_size = 0 then [] else
      [("test", testIdxs n withhold tune_size test_size rseed)])

/-- Modelled from the spec (§4.2): `split_dataset.train_tune_test` with the
withheld reference already resolved to the index list `withhold`.  The
fractions must be nonnegative and sum to one, else `InvalidFractions`; the
pool is permuted once with the seeded generator and sliced in the fixed role
order tune, test, train (the notebook shows the supertest sample reappearing
as the prefix of the un-withheld tune slice, fixing this order); the train
slice absorbs the rounding remainder. -/
def train_tune_test (n : Nat) (train_size tune_size test_size : ℚ)
    (withhold : List Nat) (rseed : Nat) : Except SplitError Split :=
  if train_size < 0 ∨ tune_size < 0 ∨ test_size < 0 ∨
      train_size + tune_size + test_size ≠ 1 then
    .error .InvalidFractions
  else
    .ok (sharedRoles n withhold tune_size test_size rseed ++
      (if train_size = 0 then [] else
        [("train", trainIdxs n withhold tune_size test_size rseed)]))

/-- Modelled from the spec (§4.1): `split_dataset.supertest` — an Index Set of
size `round(N * size)` drawn from the seeded permutation of `[0, N)`. -/
def supertest (n : Nat) (size : ℚ) (rseed : Nat) : List Nat :=
  (shuffle (rngOfSeed rseed) (List.range n)).take (roundNat (size * n))

/-- Modelled from the spec (§4.3 step 3): the per-replicate random state is
derived deterministically from the base seed and the replicate index. -/
def repSeed (rseed i : Nat) : Nat :=
  1000003 * (i + 1) + rseed

/-- The residual pool `R` (§4.3 step 2): the pool minus tune minus test, which
is exactly the train slice of the standard split with the same arguments. -/
def residualIdxs (n : Nat) (withhold : List Nat) (tune_size test_size : ℚ)
    (rseed : Nat) : List Nat :=
  trainIdxs n withhold tune_size test_size rseed

/-- Replicate `i`'s train Index Set: `round(|R| * train_prop)` indices drawn
from the residual pool with the replicate-derived random state. -/
def trainRep (n : Nat) (withhold : List Nat) (tune_size test_size train_prop : ℚ)
    (rseed i : Nat) : List Nat :=
  (shuffle (rngOfSeed (repSeed rseed i))
      (residualIdxs n withhold tune_size test_size rseed)).take
    (roundNat (train_prop * (residualIdxs n withhold tune_size test_size rseed).length))

/-- Modelled from the spec (§4.3): `split_dataset.reduced_train_size` — a Split
Batch of `numReps` Splits sharing the stest/tune/test roles of the standard
split with the same seed, each with an independently drawn train replicate. -/
def reduced_train_size (n : Nat) (tune_size test_size train_prop : ℚ)
    (numReps : Nat) (withhold : List Nat) (rseed : Nat) : List Split :=
  (List.range numReps).map (fun i =>
    sharedRoles n withhold tune_size test_size rseed ++
      [("train", trainRep n withhold tune_size test_size train_prop rseed i)])

/-- The content of one persisted file: one line per index, each line the
base-10 digit string of the index (§6: "a newline- or line-delimited list of
integers"). -/
abbrev FileData := List (List Nat)

/-- The little-endian base-10 digits of `n`, recursing on a fuel bound
(`serNat` supplies `n` itself, which always suffices). -/
def toDigits10 : Nat → Nat → List Nat
  | 0, n => [n]
  | fuel + 1, n => if n < 10 then [n] else n % 10 :: toDigits10 fuel (n / 10)

/-- One line of a persisted file: the decimal digit string of one index. -/
def serNat (n : Nat) : List Nat :=
  toDigits10 n n

/-- Read one decimal line back into a number. -/
def deserNat (ds : List Nat) : Nat :=
  ds.foldr (fun d acc => d + 10 * acc) 0

/-- Serialize an Index Set to line-delimited base-10 text. -/
def serializeIdxs (l : List Nat) : FileData :=
  l.map serNat

/-- Parse line-delimited base-10 text back into an Index Set. -/
def parseIdxs (f : FileData) : List Nat :=
  f.map deserNat

/-- The name of one file inside a persisted split directory: a role file
("train.txt", "tune.txt", ...) or a numbered train-replicate file of a Split
Batch (§4.3 step 5). -/
inductive FKey where
  | role (r : String)
  | trainRep (i : Nat)
deriving DecidableEq

/-- A persisted split directory: its files, keyed by name.  The order of this
list is the filesystem's directory listing order, which the spec does not fix. -/
abbrev DirListing := List (FKey × FileData)

/-- Persist a single Split (§4.2 step 5): one file per role. -/
def persistSplit (sp : Split) : DirListing :=
  sp.map (fun kv => (FKey.role kv.1, serializeIdxs kv.2))

/-- Persist a Split Batch (§4.3 step 5): one file per shared role plus one
separately named file per train replicate. -/
def persistBatch (n : Nat) (tune_size test_size train_prop : ℚ)
    (numReps : Nat) (withhold : List Nat) (rseed : Nat) : DirListing :=
  persistSplit (sharedRoles n withhold tune_size test_size rseed) ++
    (List.range numReps).map (fun i =>
      (FKey.trainRep i,
        serializeIdxs (trainRep n withhold tune_size test_size train_prop rseed i)))

/-- What the loader reconstructs: a single Split or a Split Batch. -/
inductive Loaded where
  | single (sp : Split)
  | batch (b : List Split)
deriving DecidableEq

/-- The Split Batch carried by a `Loaded`, a single Split read as a one-element
batch. -/
def batchOf : Loaded → List Split
  | .single sp => [sp]
  | .batch b => b

/-- Read one file of a split directory as a train replicate, when its name
marks it as one. -/
def trainFileOf (kv : FKey × FileData) : Option (List Nat) :=
  match kv.1 with
  | .trainRep _ => some (parseIdxs kv.2)
  | .role _ => none

/-- Read one file of a split directory as a named role. -/
def roleFileOf (kv : FKey × FileData) : Option (String × List Nat) :=
  match kv.1 with
  | .role r => some (r, parseIdxs kv.2)
  | .trainRep _ => none

/-- Modelled from the spec (§4.4): `split_dataset.load_split_dir` — rebuild the
Split (or Split Batch, when numbered train-replicate files are present) from
the files of a saved directory.  The order in which the filesystem lists the
files is not fixed by the spec, and the notebook shows the loaded replicates
and roles in a different order than they were saved, so the listing is the
explicit argument. -/
def load_split_dir (listing : DirListing) : Loaded :=
  let trains := listing.filterMap trainFileOf
  let roles : Split := listing.filterMap roleFileOf
  if trains.isEmpty then .single roles
  else .batch (trains.map (fun t => ("train", t) :: roles))

/-- Modelled from the spec (§3 Content Hash): a deterministic fingerprint of
the sorted contents of an Index Set; the source uses a short hex digest, and
any stable content hash fits the contract. -/
def contentHash (w : List Nat) : Nat :=
  (List.insertionSort (· ≤ ·) w).foldl (fun h x => lcgNext (h + x)) 0

/-- A persisted path, as the parameter-encoding name of §6: split-kind token,
the fractions, the withheld-hash token (`none` standing for the `wF`
placeholder), the replicate count for batches, and the seed. -/
structure PathKey where
  kind : String
  fracs : List ℚ
  whash : Option Nat
  reps : Option Nat
  rseed : Nat
deriving DecidableEq

/-- One entry of the backing store: a supertest file or a split directory. -/
inductive Entry where
  | file (f : FileData)
  | dir (d : DirListing)
deriving DecidableEq

/-- The backing file store, addressed by path. -/
abbrev Store := List (PathKey × Entry)

/-- Look up a path in the store. -/
def lookupStore (st : Store) (k : PathKey) : Option Entry :=
  match st with
  | [] => none
  | (k0, v) :: rest => if k0 = k then some v else lookupStore rest k

/-- Modelled from the spec (§7 AlreadyExists): write an entry, refusing to
replace an existing path unless the overwrite flag is set; a refused write
changes nothing. -/
def saveEntry (st : Store) (k : PathKey) (overwrite : Bool) (v : Entry) :
    Except SplitError Store :=
  if (lookupStore st k).isSome ∧ overwrite = false then .error .AlreadyExists
  else .ok ((k, v) :: st.filter (fun kv => decide (kv.1 ≠ k)))

/-- The path of a persisted supertest sample: kind token, fraction, the
content hash of the sampled set itself, and the seed (the notebook's
`supertest_wf333b1bd195c_s0.1_r12.txt`). -/
def supertest_key (n : Nat) (size : ℚ) (rseed : Nat) : PathKey :=
  ⟨"supertest", [size], some (contentHash (supertest n size rseed)), none, rseed⟩

/-- The path of a persisted standard split (the notebook's
`standard_tr0.6_tu0.2_te0.2_wF_r12` and `..._wf333b1bd195c_r12`). -/
def ttt_key (train_size tune_size test_size : ℚ) (withhold : List Nat)
    (rseed : Nat) : PathKey :=
  ⟨"standard", [train_size, tune_size, test_size],
    if withhold.isEmpty then none else some (contentHash withhold), none, rseed⟩

/-- The path of a persisted reduced-train-size batch (the notebook's
`reduced_tr0.5_tu0.2_te0.2_wf333b1bd195c_s5_r12`). -/
def reduced_key (tune_size test_size train_prop : ℚ) (numReps : Nat)
    (withhold : List Nat) (rseed : Nat) : PathKey :=
  ⟨"reduced", [train_prop, tune_size, test_size],
    if withhold.isEmpty then none else some (contentHash withhold),
    some numReps, rseed⟩

/-- `supertest` with persistence (§4.1): sample, then write the sample under
its hash-tagged name; on a refused overwrite the store is returned unchanged. -/
def supertest_saved (st : Store) (overwrite : Bool) (n : Nat) (size : ℚ)
    (rseed : Nat) : Except SplitError (List Nat × PathKey) × Store :=
  let idxs := supertest n size rseed
  let key := supertest_key n size rseed
  match saveEntry st key overwrite (.file (serializeIdxs idxs)) with
  | .ok st2 => (.ok (idxs, key), st2)
  | .error e => (.error e, st)

/-- `train_tune_test` with persistence (§4.2 step 5): any failure aborts the
call before anything is written. -/
def train_tune_test_saved (st : Store) (overwrite : Bool) (n : Nat)
    (train_size tune_size test_size : ℚ) (withhold : List Nat) (rseed : Nat) :
    Except SplitError (Split × PathKey) × Store :=
  match train_tune_test n train_size tune_size test_size withhold rseed with
  | .error e => (.error e, st)
  | .ok sp =>
    let key := ttt_key train_size tune_size test_size withhold rseed
    match saveEntry st key overwrite (.dir (persistSplit sp)) with
    | .ok st2 => (.ok (sp, key), st2)
    | .error e => (.error e, st)

/-- `reduced_train_size` with persistence (§4.3 step 5). -/
def reduced_train_size_saved (st : Store) (overwrite : Bool) (n : Nat)
    (tune_size test_size train_prop : ℚ) (numReps : Nat) (withhold : List Nat)
    (rseed : Nat) : Except SplitError (List Split × PathKey) × Store :=
  let b := reduced_train_size n tune_size test_size train_prop numReps withhold rseed
  let key := reduced_key tune_size test_size train_prop numReps withhold rseed
  match saveEntry st key overwrite
      (.dir (persistBatch n tune_size test_size train_prop numReps withhold rseed)) with
  | .ok st2 => (.ok (b, key), st2)
  | .error e => (.error e, st)

/-- Modelled from the spec (§9): the source draws from a module-level seeded
generator; every call begins by reseeding it from the explicit seed argument.
`g` is the ambient generator state at call time (discarded by the reseeding)
and the second component is the state the call leaves behind. -/
def supertest_rng (_g : Nat) (n : Nat) (size : ℚ) (rseed : Nat) :
    List Nat × Nat :=
  (supertest n size rseed, advanceRng (rngOfSeed rseed) n)

/-- Modelled from the spec (§9): `train_tune_test` as seen through the
module-level generator, as in `supertest_rng`. -/
def train_tune_test_rng (_g : Nat) (n : Nat) (train_size tune_size test_size : ℚ)
    (withhold : List Nat) (rseed : Nat) : Except SplitError Split × Nat :=
  (train_tune_test n train_size tune_size test_size withhold rseed,
    advanceRng (rngOfSeed rseed) (pool n withhold).length)

/-- Modelled from the spec (§6 Encoding module): the 21-character alphabet of
one-hot encoding — the 20 amino acids plus the gap/unknown character. -/
def aaChars : List Char :=
  ['A', 'C', 'D', 'E', 'F', 'G', 'H', 'I', 'K', 'L', 'M',
   'N', 'P', 'Q', 'R', 'S', 'T', 'V', 'W', 'Y', '*']

/-- One-hot feature vector of one sequence character (21 wide; the notebook
shows the pure one-hot output as a Boolean indicator array). -/
def oneHotFeat (c : Char) : List ℚ :=
  aaChars.map (fun a => if a = c then 1 else 0)

/-- The encoding schemes named by the `encoding` spec string
("one_hot,aa_index" selects both). -/
inductive EncScheme where
  | one_hot
  | aa_index
deriving DecidableEq

/-- Per-scheme feature width: 21 for one-hot, 19 for the reduced AAindex
physicochemical basis. -/
def schemeWidth : EncScheme → Nat
  | .one_hot => 21
  | .aa_index => 19

/-- Modelled from the spec: per-character features of one scheme.  The AAindex
basis table (19 components per amino-acid character, `encode.py` and its data
file are absent from the sources) is a parameter. -/
def schemeFeat (aaTable : Char → List ℚ) : EncScheme → Char → List ℚ
  | .one_hot, c => oneHotFeat c
  | .aa_index, c => aaTable c

/-- All schemes' features of one character, concatenated. -/
def encodeChar (aaTable : Char → List ℚ) (schemes : List EncScheme) (c : Char) :
    List ℚ :=
  (schemes.map (fun s => schemeFeat aaTable s c)).flatten

/-- Feature matrix of one sequence: one feature row per character. -/
def encodeSeq (aaTable : Char → List ℚ) (schemes : List EncScheme)
    (s : List Char) : List (List ℚ) :=
  s.map (encodeChar aaTable schemes)

/-- A point mutation `<current_aa><position><replacement_aa>` (e.g. "K3A"). -/
structure Mutation where
  oldAA : Char
  pos : Nat
  newAA : Char
deriving DecidableEq

/-- Modelled from the spec + notebook: apply one mutation to the wild type;
`offset` is subtracted from the written position to restore 0-based indexing. -/
def applyMut (offset : Nat) (wt : List Char) (m : Mutation) : List Char :=
  wt.set (m.pos - offset) m.newAA

/-- Apply a comma-separated mutation list to the wild type. -/
def applyMuts (offset : Nat) (wt : List Char) (ms : List Mutation) : List Char :=
  ms.foldl (applyMut offset) wt

/-- A numeric tensor as numpy hands it back, together with its shape. -/
inductive NDArr where
  | scalar (x : ℚ)
  | arr (xs : List NDArr)

/-- The shape of a (rectangular) tensor, numpy style. -/
def ndshape : NDArr → List Nat
  | .scalar _ => []
  | .arr [] => [0]
  | .arr (x :: xs) => (xs.length + 1) :: ndshape x

/-- A rank-2 tensor from a feature matrix. -/
def matArr (m : List (List ℚ)) : NDArr :=
  .arr (m.map (fun row => .arr (row.map NDArr.scalar)))

/-- The three input forms `enc.encode` accepts: a single raw sequence, a list
of raw sequences, or mutation lists plus wild-type/offset metadata. -/
inductive EncodeInput where
  | seq (s : List Char)
  | seqs (ss : List (List Char))
  | variants (vs : List (List Mutation)) (wt : List Char) (offset : Nat)

/-- Modelled from the spec (§6) and the notebook's recorded outputs:
`enc.encode`.  A list input (sequences or variants) yields a rank-3 tensor
of shape (num_variants, sequence_length, feature_dim); a single raw sequence
comes back with the variant axis squeezed away — the notebook records shape
(56, 21) for a single sequence under one-hot encoding. -/
def encode (aaTable : Char → List ℚ) (schemes : List EncScheme) :
    EncodeInput → NDArr
  | .seq s => matArr (encodeSeq aaTable schemes s)
  | .seqs ss => .arr (ss.map (fun s => matArr (encodeSeq aaTable schemes s)))
  | .variants vs wt offset =>
    .arr (vs.map (fun ms => matArr (encodeSeq aaTable schemes (applyMuts offset wt ms))))

/-- The split of n = 6, fractions 1/2, 1/4, 1/4, withheld set [2, 5], seed 3
(concrete instance used by witnesses). -/
def exampleSplitW : Split :=
  [("stest", [2, 5]), ("tune", [3]), ("test", [0]), ("train", [1, 4])]

/-- The un-withheld split of n = 10, fractions 2/5, 2/5, 1/5, seed 12
(concrete instance used by witnesses). -/
def exampleSplit10 : Split :=
  [("tune", [3, 7, 6, 5]), ("test", [9, 2]), ("train", [1, 4, 8, 0])]

/-- The split of n = 10, fractions 4/5, 1/5, 0, seed 7: the zero test fraction
leaves the test role out (concrete instance used by witnesses). -/
def exampleSplitZ : Split :=
  [("tune", [0, 7]), ("train", [5, 3, 4, 2, 1, 6, 8, 9])]

/-- The un-withheld split of n = 5, fractions 3/5, 1/5, 1/5, seed 1
(concrete instance used by witnesses). -/
def exampleSplit5 : Split :=
  [("tune", [2]), ("test", [4]), ("train", [3, 1, 0])]

/-- A backing store already holding one path of each kind (concrete instance
used by witnesses). -/
def exampleStore : Store :=
  [(supertest_key 4 (1/2) 9, .file []),
   (ttt_key (1/2) (1/4) (1/4) [0] 9, .dir []),
   (reduced_key (1/4) (1/4) (1/2) 2 [0] 9, .dir [])]

theorem shuffleFuel_perm : ∀ (fuel s : Nat) (l : List Nat),
    (shuffleFuel fuel s l).Perm l := by
  intro fuel
  induction fuel with
  | zero => intro s l; exact List.Perm.refl l
  | succ fuel ih =>
    intro s l
    match l with
    | [] => exact List.Perm.refl []
    | a :: as =>
      have hi : s % (as.length + 1) < (a :: as).length := by
        simp [Nat.mod_lt]
      have hget : (a :: as).getD (s % (as.length + 1)) a
          = (a :: as).get ⟨s % (as.length + 1), hi⟩ := by
        simp [List.getD_eq_getElem?_getD, List.getElem?_eq_getElem hi]
      rw [shuffleFuel, hget]
      have herase : ((a :: as).get ⟨s % (as.length + 1), hi⟩ ::
          (a :: as).eraseIdx (s % (as.length + 1))).Perm (a :: as) := by
        have h1 := List.perm_cons_erase
          (List.get_mem (a :: as) (s % (as.length + 1)) hi)
        have h2 := @List.erase_getElem Nat _ (a :: as) (s % (as.length + 1)) hi
        have h2' : ((a :: as).erase ((a :: as).get ⟨s % (as.length + 1), hi⟩)).Perm
            ((a :: as).eraseIdx (s % (as.length + 1))) := by
          simpa [List.get_eq_getElem] using h2
        exact (List.Perm.cons _ h2'.symm).trans h1.symm
      exact ((ih (lcgNext s) _).cons _).trans herase

theorem shuffle_perm (s : Nat) (l : List Nat) : (shuffle s l).Perm l :=
  shuffleFuel_perm l.length s l

theorem shuffle_length (s : Nat) (l : List Nat) :
    (shuffle s l).length = l.length :=
  (shuffle_perm s l).length_eq

theorem shuffle_mem (s : Nat) (l : List Nat) (x : Nat) :
    x ∈ shuffle s l ↔ x ∈ l :=
  (shuffle_perm s l).mem_iff

theorem shuffle_nodup (s : Nat) (l : List Nat) (h : l.Nodup) :
    (shuffle s l).Nodup :=
  ((shuffle_perm s l).nodup_iff).mpr h

theorem mem_pool (n : Nat) (withhold : List Nat) (x : Nat) :
    x ∈ pool n withhold ↔ x < n ∧ x ∉ withhold := by
  simp [pool, List.mem_filter, List.mem_range]

theorem pool_nodup (n : Nat) (withhold : List Nat) : (pool n withhold).Nodup :=
  (List.nodup_range n).filter _

theorem pool_nil (n : Nat) : pool n [] = List.range n := by
  simp [pool]

theorem deserNat_toDigits10 : ∀ (fuel n : Nat), deserNat (toDigits10 fuel n) = n := by
  intro fuel
  induction fuel with
  | zero => intro n; simp [toDigits10, deserNat]
  | succ fuel ih =>
    intro n
    rw [toDigits10]
    split_ifs with h
    · simp [deserNat]
    · have hstep : deserNat (n % 10 :: toDigits10 fuel (n / 10))
          = n % 10 + 10 * deserNat (toDigits10 fuel (n / 10)) := rfl
      rw [hstep, ih (n / 10), Nat.mod_add_div]

theorem deserNat_serNat (n : Nat) : deserNat (serNat n) = n :=
  deserNat_toDigits10 n n

theorem parseIdxs_serializeIdxs (l : List Nat) : parseIdxs (serializeIdxs l) = l := by
  simp only [parseIdxs, serializeIdxs, List.map_map]
  exact List.map_congr_left (fun x _ => deserNat_serNat x) |>.trans (List.map_id l)

theorem roundNat_zero : roundNat 0 = 0 := by
  norm_num [roundNat]

theorem roundNat_mono {q₁ q₂ : ℚ} (h : q₁ ≤ q₂) : roundNat q₁ ≤ roundNat q₂ :=
  Int.toNat_le_toNat (Int.floor_le_floor (by linarith))

theorem roundNat_eq (q : ℚ) (m : Nat) (h : Int.floor (q + 1/2) = (m : ℤ)) :
    roundNat q = m := by
  rw [roundNat, h, Int.toNat_natCast]

theorem permOf_perm (n : Nat) (w : List Nat) (rs : Nat) :
    (permOf n w rs).Perm (pool n w) :=
  shuffle_perm _ _

theorem permOf_length (n : Nat) (w : List Nat) (rs : Nat) :
    (permOf n w rs).length = (pool n w).length :=
  (permOf_perm n w rs).length_eq

theorem permOf_nodup (n : Nat) (w : List Nat) (rs : Nat) :
    (permOf n w rs).Nodup :=
  ((permOf_perm n w rs).nodup_iff).mpr (pool_nodup n w)

theorem mem_permOf (n : Nat) (w : List Nat) (rs x : Nat) :
    x ∈ permOf n w rs ↔ x < n ∧ x ∉ w := by
  rw [(permOf_perm n w rs).mem_iff, mem_pool]

/-- The three slices are a partition of the seeded permutation in the fixed
role order tune, test, train. -/
theorem slices_partition (n : Nat) (w : List Nat) (tu te : ℚ) (rs : Nat) :
    tuneIdxs n w tu rs ++ (testIdxs n w tu te rs ++ trainIdxs n w tu te rs)
      = permOf n w rs := by
  rw [tuneIdxs, testIdxs, trainIdxs, List.take_append_drop, List.take_append_drop]

theorem tuneIdxs_eq_nil (n : Nat) (w : List Nat) (rs : Nat) :
    tuneIdxs n w 0 rs = [] := by
  simp [tuneIdxs, nTuneOf, roundNat_zero]

theorem testIdxs_eq_nil (n : Nat) (w : List Nat) (tu : ℚ) (rs : Nat) :
    testIdxs n w tu 0 rs = [] := by
  simp [testIdxs, nTestOf, roundNat_zero]

/-- When the train fraction is zero (tune and test sum to one), the tune and
test slices already exhaust the permutation. -/
theorem trainIdxs_eq_nil (n : Nat) (w : List Nat) (tu te : ℚ) (rs : Nat)
    (htu : 0 ≤ tu) (hte : 0 ≤ te) (hsum : tu + te = 1) :
    trainIdxs n w tu te rs = [] := by
  have hL : (permOf n w rs).length = (pool n w).length := permOf_length n w rs
  set L := (pool n w).length with hLdef
  have ha : (0 : ℚ) ≤ tu * L + 1/2 := by positivity
  have hb : (0 : ℚ) ≤ te * L + 1/2 := by positivity
  have h1 : (tu * L + 1/2) - 1 < ((Int.floor (tu * L + 1/2) : ℤ) : ℚ) :=
    Int.sub_one_lt_floor _
  have h2 : (te * L + 1/2) - 1 < ((Int.floor (te * L + 1/2) : ℤ) : ℚ) :=
    Int.sub_one_lt_floor _
  have hsumQ : ((L : ℤ) : ℚ) - 1 <
      ((Int.floor (tu * L + 1/2) + Int.floor (te * L + 1/2) : ℤ) : ℚ) := by
    push_cast
    have : tu * L + te * L = L := by
      have := hsum
      nlinarith [hsum]
    linarith
  have hsumZ : (L : ℤ) ≤ Int.floor (tu * L + 1/2) + Int.floor (te * L + 1/2) := by
    have h3 : (L : ℤ) - 1 < Int.floor (tu * L + 1/2) + Int.floor (te * L + 1/2) := by
      exact_mod_cast hsumQ
    omega
  have hkey : L ≤ nTuneOf n w tu + nTestOf n w te := by
    rw [nTuneOf, nTestOf, roundNat, roundNat, ← hLdef,
      ← Int.toNat_add (Int.floor_nonneg.mpr ha) (Int.floor_nonneg.mpr hb)]
    exact (Int.le_toNat (by omega)).mpr hsumZ
  rw [trainIdxs]
  refine List.drop_eq_nil_of_le ?_
  rw [List.length_drop, hL]
  omega

theorem tuneIdxs_subset (n : Nat) (w : List Nat) (tu : ℚ) (rs : Nat) :
    tuneIdxs n w tu rs ⊆ permOf n w rs :=
  List.take_subset _ _

theorem testIdxs_subset (n : Nat) (w : List Nat) (tu te : ℚ) (rs : Nat) :
    testIdxs n w tu te rs ⊆ permOf n w rs :=
  fun _ hx => List.drop_subset _ _ (List.take_subset _ _ hx)

theorem trainIdxs_subset (n : Nat) (w : List Nat) (tu te : ℚ) (rs : Nat) :
    trainIdxs n w tu te rs ⊆ permOf n w rs :=
  fun _ hx => List.drop_subset _ _ (List.drop_subset _ _ hx)

/-- The three slices of one call are pairwise disjoint. -/
theorem slices_disjoint (n : Nat) (w : List Nat) (tu te : ℚ) (rs : Nat) :
    (tuneIdxs n w tu rs).Disjoint (testIdxs n w tu te rs) ∧
      (tuneIdxs n w tu rs).Disjoint (trainIdxs n w tu te rs) ∧
      (testIdxs n w tu te rs).Disjoint (trainIdxs n w tu te rs) := by
  have hnd : (tuneIdxs n w tu rs ++
      (testIdxs n w tu te rs ++ trainIdxs n w tu te rs)).Nodup := by
    rw [slices_partition]
    exact permOf_nodup n w rs
  rw [List.nodup_append] at hnd
  obtain ⟨-, hnd2, hdisj1⟩ := hnd
  rw [List.nodup_append] at hnd2
  rw [List.disjoint_append_right] at hdisj1
  exact ⟨hdisj1.1, hdisj1.2, hnd2.2.2⟩

/-- The three slice sizes always sum exactly to the pool size. -/
theorem slices_length_sum (n : Nat) (w : List Nat) (tu te : ℚ) (rs : Nat) :
    (tuneIdxs n w tu rs).length + (testIdxs n w tu te rs).length +
      (trainIdxs n w tu te rs).length = (pool n w).length := by
  have h := congrArg List.length (slices_partition n w tu te rs)
  rw [List.length_append, List.length_append, permOf_length] at h
  omega

theorem getRole_append_of_ne (l : Split) (k : String) (v : List Nat) (r : String)
    (hkr : k ≠ r) : getRole (l ++ [(k, v)]) r = getRole l r := by
  induction l with
  | nil => simp [getRole, hkr]
  | cons kv rest ih =>
    obtain ⟨k0, v0⟩ := kv
    by_cases hk0 : k0 = r <;> simp [getRole, hk0, ih]

theorem getRole_shared_stest (n : Nat) (w : List Nat) (tu te : ℚ) (rs : Nat) :
    getRole (sharedRoles n w tu te rs) ("stest") = w := by
  simp only [sharedRoles]
  split_ifs with h1 h2 h3 <;> simp_all [getRole, List.isEmpty_iff]

theorem getRole_shared_tune (n : Nat) (w : List Nat) (tu te : ℚ) (rs : Nat) :
    getRole (sharedRoles n w tu te rs) ("tune") = tuneIdxs n w tu rs := by
  simp only [sharedRoles]
  split_ifs with h1 h2 h3 <;> simp_all [getRole, tuneIdxs_eq_nil]

theorem getRole_shared_test (n : Nat) (w : List Nat) (tu te : ℚ) (rs : Nat) :
    getRole (sharedRoles n w tu te rs) ("test") = testIdxs n w tu te rs := by
  simp only [sharedRoles]
  split_ifs with h1 h2 h3 <;> simp_all [getRole, testIdxs_eq_nil]

theorem getRole_shared_train (n : Nat) (w : List Nat) (tu te : ℚ) (rs : Nat) :
    getRole (sharedRoles n w tu te rs) ("train") = [] := by
  simp only [sharedRoles]
  split_ifs with h1 h2 h3 <;> simp_all [getRole]

theorem getRole_shared_train_append (n : Nat) (w : List Nat) (tu te : ℚ)
    (rs : Nat) (x : List Nat) :
    getRole (sharedRoles n w tu te rs ++ [("train", x)]) ("train") = x := by
  simp only [sharedRoles]
  split_ifs with h1 h2 h3 <;> simp_all [getRole]

theorem roleKeys_shared_nodup (n : Nat) (w : List Nat) (tu te : ℚ) (rs : Nat) :
    (roleKeys (sharedRoles n w tu te rs)).Nodup := by
  simp only [sharedRoles, roleKeys]
  split_ifs with h1 h2 h3 <;> simp

theorem train_notMem_roleKeys_shared (n : Nat) (w : List Nat) (tu te : ℚ)
    (rs : Nat) : ("train") ∉ roleKeys (sharedRoles n w tu te rs) := by
  simp only [sharedRoles, roleKeys]
  split_ifs with h1 h2 h3 <;> simp

theorem roleKeys_shared_train_nodup (n : Nat) (w : List Nat) (tu te : ℚ)
    (rs : Nat) (x : List Nat) :
    (roleKeys (sharedRoles n w tu te rs ++ [("train", x)])).Nodup := by
  simp only [sharedRoles, roleKeys]
  split_ifs with h1 h2 h3 <;> simp

/-- Role lookup is invariant under reordering an association list whose keys
are distinct (the loader sees the files in arbitrary filesystem order). -/
theorem getRole_eq_of_perm {l₁ l₂ : Split} (h : l₁.Perm l₂) :
    (l₂.map Prod.fst).Nodup → ∀ r, getRole l₁ r = getRole l₂ r := by
  induction h with
  | nil => intro _ r; rfl
  | cons x h ih =>
    intro nd r
    obtain ⟨k, v⟩ := x
    simp only [List.map_cons, List.nodup_cons] at nd
    by_cases hk : k = r <;> simp [getRole, hk, ih nd.2 r]
  | swap x y l =>
    intro nd r
    obtain ⟨a, va⟩ := x
    obtain ⟨b, vb⟩ := y
    have hab : b ≠ a := by
      simp only [List.map_cons, List.nodup_cons, List.mem_cons] at nd
      intro hba
      exact nd.1 (Or.inl hba.symm)
    by_cases har : a = r <;> by_cases hbr : b = r <;> simp_all [getRole]
  | trans h₁ h₂ ih₁ ih₂ =>
    intro nd r
    have ndmid := ((h₂.map Prod.fst).nodup_iff).mpr nd
    exact (ih₁ ndmid r).trans (ih₂ nd r)

/-- A valid fraction triple makes `train_tune_test` succeed, with the split it
builds spelled out. -/
theorem ttt_ok_of_valid (n : Nat) (tr tu te : ℚ) (w : List Nat) (rs : Nat)
    (htr : 0 ≤ tr) (htu : 0 ≤ tu) (hte : 0 ≤ te) (hsum : tr + tu + te = 1) :
    train_tune_test n tr tu te w rs
      = .ok (sharedRoles n w tu te rs ++
          (if tr = 0 then [] else [("train", trainIdxs n w tu te rs)])) := by
  rw [train_tune_test, if_neg]
  push_neg
  exact ⟨htr, htu, hte, hsum⟩

/-- `train_tune_test` fails exactly on the invalid fraction triples. -/
theorem ttt_error_iff (n : Nat) (tr tu te : ℚ) (w : List Nat) (rs : Nat) :
    train_tune_test n tr tu te w rs = .error .InvalidFractions ↔
      (tr + tu + te ≠ 1 ∨ tr < 0 ∨ tu < 0 ∨ te < 0) := by
  rw [train_tune_test]
  split_ifs with hbad
  · simp only [true_iff]
    tauto
  · simp only [reduceCtorEq, false_iff]
    tauto

/-- The fractions behind a successful call are valid. -/
theorem ttt_ok_valid (n : Nat) (tr tu te : ℚ) (w : List Nat) (rs : Nat)
    (sp : Split) (h : train_tune_test n tr tu te w rs = .ok sp) :
    0 ≤ tr ∧ 0 ≤ tu ∧ 0 ≤ te ∧ tr + tu + te = 1 := by
  by_cases hbad : tr < 0 ∨ tu < 0 ∨ te < 0 ∨ tr + tu + te ≠ 1
  · rw [train_tune_test, if_pos hbad] at h
    cases h
  · push_neg at hbad
    exact hbad

/-- The split a successful call returns. -/
theorem ttt_ok_split (n : Nat) (tr tu te : ℚ) (w : List Nat) (rs : Nat)
    (sp : Split) (h : train_tune_test n tr tu te w rs = .ok sp) :
    sp = sharedRoles n w tu te rs ++
      (if tr = 0 then [] else [("train", trainIdxs n w tu te rs)]) := by
  by_cases hbad : tr < 0 ∨ tu < 0 ∨ te < 0 ∨ tr + tu + te ≠ 1
  · rw [train_tune_test, if_pos hbad] at h
    cases h
  · rw [train_tune_test, if_neg hbad] at h
    cases h
    rfl

/-- Every role of a successful split, expressed through the canonical slices
(a zero-fraction role is omitted, and its slice is empty). -/
theorem ttt_ok_roles (n : Nat) (tr tu te : ℚ) (w : List Nat) (rs : Nat)
    (sp : Split) (h : train_tune_test n tr tu te w rs = .ok sp) :
    getRole sp ("stest") = w ∧
      getRole sp ("tune") = tuneIdxs n w tu rs ∧
      getRole sp ("test") = testIdxs n w tu te rs ∧
      getRole sp ("train") = trainIdxs n w tu te rs := by
  obtain ⟨htr, htu, hte, hsum⟩ := ttt_ok_valid n tr tu te w rs sp h
  rw [ttt_ok_split n tr tu te w rs sp h]
  by_cases htr0 : tr = 0
  · rw [if_pos htr0, List.append_nil]
    refine ⟨getRole_shared_stest n w tu te rs, getRole_shared_tune n w tu te rs,
      getRole_shared_test n w tu te rs, ?_⟩
    rw [getRole_shared_train n w tu te rs,
      trainIdxs_eq_nil n w tu te rs htu hte (by rw [htr0] at hsum; linarith)]
  · rw [if_neg htr0]
    refine ⟨?_, ?_, ?_, getRole_shared_train_append n w tu te rs _⟩
    · rw [getRole_append_of_ne _ _ _ _ (by decide), getRole_shared_stest]
    · rw [getRole_append_of_ne _ _ _ _ (by decide), getRole_shared_tune]
    · rw [getRole_append_of_ne _ _ _ _ (by decide), getRole_shared_test]

/-- The role names of a successful split are distinct. -/
theorem ttt_ok_keys_nodup (n : Nat) (tr tu te : ℚ) (w : List Nat) (rs : Nat)
    (sp : Split) (h : train_tune_test n tr tu te w rs = .ok sp) :
    (roleKeys sp).Nodup := by
  rw [ttt_ok_split n tr tu te w rs sp h]
  by_cases htr0 : tr = 0
  · rw [if_pos htr0, List.append_nil]
    exact roleKeys_shared_nodup n w tu te rs
  · rw [if_neg htr0]
    exact roleKeys_shared_train_nodup n w tu te rs _

theorem oneHotFeat_length (c : Char) : (oneHotFeat c).length = 21 := by
  simp [oneHotFeat, aaChars]

theorem schemeFeat_length (t : Char → List ℚ) (ht : ∀ c, (t c).length = 19)
    (s : EncScheme) (c : Char) : (schemeFeat t s c).length = schemeWidth s := by
  cases s
  · simp [schemeFeat, schemeWidth, oneHotFeat_length]
  · simp [schemeFeat, schemeWidth, ht]

theorem encodeChar_length (t : Char → List ℚ) (ht : ∀ c, (t c).length = 19)
    (schemes : List EncScheme) (c : Char) :
    (encodeChar t schemes c).length = (schemes.map schemeWidth).sum := by
  induction schemes with
  | nil => rfl
  | cons s rest ih =>
    have hsplit : encodeChar t (s :: rest) c
        = schemeFeat t s c ++ encodeChar t rest c := by
      simp [encodeChar]
    rw [hsplit, List.length_append, schemeFeat_length t ht s c, ih,
      List.map_cons, List.sum_cons]

theorem schemeWidth_pos (s : EncScheme) : 0 < schemeWidth s := by
  cases s <;> simp [schemeWidth]

theorem sumWidth_pos (schemes : List EncScheme) (h : schemes ≠ []) :
    0 < (schemes.map schemeWidth).sum := by
  match schemes with
  | s :: rest =>
    rw [List.map_cons, List.sum_cons]
    exact Nat.lt_of_lt_of_le (schemeWidth_pos s) (Nat.le_add_right _ _)

theorem ndshape_matArr (m : List (List ℚ)) (wdt : Nat) (hm : m ≠ [])
    (hw : 0 < wdt) (hrow : ∀ row ∈ m, row.length = wdt) :
    ndshape (matArr m) = [m.length, wdt] := by
  obtain ⟨r, rest, rfl⟩ := List.exists_cons_of_ne_nil hm
  have hr : r.length = wdt := hrow r (by simp)
  obtain ⟨x, rtl, hrx⟩ : ∃ x rtl, r = x :: rtl := by
    cases r with
    | nil => rw [← hr] at hw; cases hw
    | cons x rtl => exact ⟨x, rtl, rfl⟩
  subst hrx
  simp [matArr, ndshape]
  simpa using hr

theorem applyMuts_length (offset : Nat) (wt : List Char) (ms : List Mutation) :
    (applyMuts offset wt ms).length = wt.length := by
  induction ms generalizing wt with
  | nil => rfl
  | cons m rest ih =>
    have hstep : applyMuts offset wt (m :: rest)
        = applyMuts offset (applyMut offset wt m) rest := rfl
    rw [hstep, ih, applyMut, List.length_set]

theorem encodeSeq_length (t : Char → List ℚ) (schemes : List EncScheme)
    (s : List Char) : (encodeSeq t schemes s).length = s.length := by
  simp [encodeSeq]

theorem encodeSeq_rows (t : Char → List ℚ) (ht : ∀ c, (t c).length = 19)
    (schemes : List EncScheme) (s : List Char) :
    ∀ row ∈ encodeSeq t schemes s, row.length = (schemes.map schemeWidth).sum := by
  intro row hrow
  simp only [encodeSeq, List.mem_map] at hrow
  obtain ⟨c, -, rfl⟩ := hrow
  exact encodeChar_length t ht schemes c

theorem ndshape_encodeSeq (t : Char → List ℚ) (ht : ∀ c, (t c).length = 19)
    (schemes : List EncScheme) (hs : schemes ≠ []) (s : List Char) (hne : s ≠ []) :
    ndshape (matArr (encodeSeq t schemes s))
      = [s.length, (schemes.map schemeWidth).sum] := by
  rw [ndshape_matArr (encodeSeq t schemes s) _ (by simpa [encodeSeq] using hne)
    (sumWidth_pos schemes hs) (encodeSeq_rows t ht schemes s), encodeSeq_length]

/-- C1: for every universe size, fraction triple, seed and withheld reference,
calling `train_tune_test` twice with identical arguments yields identical
Index Sets for every role, and likewise two calls of `supertest` yield
identical Index Sets.  The second call starts from whatever module-level
generator state the first call left behind; because each call reseeds the
generator from its explicit seed argument, the results coincide exactly. -/
theorem C1_reproducibility (g n : Nat) (size tr tu te : ℚ) (w : List Nat)
    (rs : Nat) :
    (supertest_rng ((supertest_rng g n size rs).2) n size rs).1
        = (supertest_rng g n size rs).1 ∧
      (train_tune_test_rng ((train_tune_test_rng g n tr tu te w rs).2)
          n tr tu te w rs).1
        = (train_tune_test_rng g n tr tu te w rs).1 :=
  ⟨rfl, rfl⟩

/-- C2: for every withheld reference resolving to an Index Set `w`,
`train_tune_test` places no member of `w` into the train, tune or test Index
Sets, and the returned "stest" role is exactly `w`. -/
theorem C2_withholding (n : Nat) (tr tu te : ℚ) (w : List Nat) (rs : Nat)
    (sp : Split) (h : train_tune_test n tr tu te w rs = .ok sp) :
    (∀ x ∈ w, x ∉ getRole sp ("train") ∧ x ∉ getRole sp ("tune") ∧
      x ∉ getRole sp ("test")) ∧
    getRole sp ("stest") = w := by
  obtain ⟨hst, htun, htes, htra⟩ := ttt_ok_roles n tr tu te w rs sp h
  refine ⟨fun x hx => ?_, hst⟩
  have hnot : x ∉ permOf n w rs := fun hc => ((mem_permOf n w rs x).mp hc).2 hx
  refine ⟨fun hc => ?_, fun hc => ?_, fun hc => ?_⟩
  · rw [htra] at hc
    exact hnot (trainIdxs_subset n w tu te rs hc)
  · rw [htun] at hc
    exact hnot (tuneIdxs_subset n w tu rs hc)
  · rw [htes] at hc
    exact hnot (testIdxs_subset n w tu te rs hc)

/-- C2 witness: the withholding property instantiated at n = 6, fractions
1/2, 1/4, 1/4, withheld set `[2, 5]`, seed 3. -/
theorem C2_withholding_witness :
    (∀ x ∈ ([2, 5] : List Nat),
      x ∉ getRole [("stest", [2, 5]), ("tune", [3]), ("test", [0]),
        ("train", [1, 4])] ("train") ∧
      x ∉ getRole [("stest", [2, 5]), ("tune", [3]), ("test", [0]),
        ("train", [1, 4])] ("tune") ∧
      x ∉ getRole [("stest", [2, 5]), ("tune", [3]), ("test", [0]),
        ("train", [1, 4])] ("test")) ∧
    getRole [("stest", [2, 5]), ("tune", [3]), ("test", [0]),
      ("train", [1, 4])] ("stest") = [2, 5] :=
  C2_withholding 6 (1/2) (1/4) (1/4) [2, 5] 3 _ (by decide)

/-- C3: for every valid fraction triple the train, tune and test Index Sets
are pairwise disjoint and their sizes sum exactly to the pool size (a rounding
discrepancy of zero, within the claim's bound); in particular with N = 100,
fractions 0.6/0.2/0.2, seed 12 and no withholding the sizes are exactly
60/20/20 and every index below 100 is covered. -/
theorem C3_partition_sizes :
    (∀ (n : Nat) (tr tu te : ℚ) (w : List Nat) (rs : Nat) (sp : Split),
      train_tune_test n tr tu te w rs = .ok sp →
      ((getRole sp ("train")).Disjoint (getRole sp ("tune")) ∧
        (getRole sp ("train")).Disjoint (getRole sp ("test")) ∧
        (getRole sp ("tune")).Disjoint (getRole sp ("test"))) ∧
      (getRole sp ("train")).length + (getRole sp ("tune")).length +
        (getRole sp ("test")).length = (pool n w).length) ∧
    (∃ sp, train_tune_test 100 (3/5) (1/5) (1/5) [] 12 = .ok sp ∧
      (getRole sp ("train")).length = 60 ∧
      (getRole sp ("tune")).length = 20 ∧
      (getRole sp ("test")).length = 20 ∧
      ∀ i < 100, i ∈ getRole sp ("train") ∨ i ∈ getRole sp ("tune") ∨
        i ∈ getRole sp ("test")) := by
  constructor
  · intro n tr tu te w rs sp h
    obtain ⟨-, htun, htes, htra⟩ := ttt_ok_roles n tr tu te w rs sp h
    obtain ⟨h1, h2, h3⟩ := slices_disjoint n w tu te rs
    rw [htun, htes, htra]
    refine ⟨⟨h2.symm, h3.symm, h1⟩, ?_⟩
    have hsum := slices_length_sum n w tu te rs
    omega
  · have hok := ttt_ok_of_valid 100 (3/5) (1/5) (1/5) [] 12
      (by norm_num) (by norm_num) (by norm_num) (by norm_num)
    obtain ⟨-, htun, htes, htra⟩ := ttt_ok_roles 100 (3/5) (1/5) (1/5) [] 12 _ hok
    have hpoolLen : (pool 100 []).length = 100 := by
      rw [pool_nil, List.length_range]
    have hnTune : nTuneOf 100 [] (1/5) = 20 := by
      rw [nTuneOf, hpoolLen]
      exact roundNat_eq _ 20 (by norm_num)
    have hnTest : nTestOf 100 [] (1/5) = 20 := by
      rw [nTestOf, hpoolLen]
      exact roundNat_eq _ 20 (by norm_num)
    have hperm : (permOf 100 [] 12).length = 100 := by
      rw [permOf_length, hpoolLen]
    have htuneLen : (tuneIdxs 100 [] (1/5) 12).length = 20 := by
      rw [tuneIdxs, List.length_take, hnTune, hperm]
      omega
    have htestLen : (testIdxs 100 [] (1/5) (1/5) 12).length = 20 := by
      rw [testIdxs, List.length_take, List.length_drop, hnTune, hnTest, hperm]
      omega
    have hsum := slices_length_sum 100 [] (1/5) (1/5) 12
    rw [hpoolLen] at hsum
    refine ⟨_, hok, ?_, ?_, ?_, ?_⟩
    · rw [htra]
      omega
    · rw [htun]
      exact htuneLen
    · rw [htes]
      exact htestLen
    · intro i hi
      have hmem : i ∈ permOf 100 [] 12 := by
        rw [mem_permOf]
        exact ⟨hi, by simp⟩
      rw [← slices_partition 100 [] (1/5) (1/5) 12] at hmem
      rw [htun, htes, htra]
      rcases List.mem_append.mp hmem with h1 | h23
      · exact Or.inr (Or.inl h1)
      · rcases List.mem_append.mp h23 with h2 | h3
        · exact Or.inr (Or.inr h2)
        · exact Or.inl h3

/-- C3 witness: the general partition property instantiated at n = 6,
fractions 1/2, 1/4, 1/4, withheld set [2, 5], seed 3. -/
theorem C3_partition_sizes_witness :
    (((getRole exampleSplitW ("train")).Disjoint (getRole exampleSplitW ("tune")) ∧
      (getRole exampleSplitW ("train")).Disjoint (getRole exampleSplitW ("test")) ∧
      (getRole exampleSplitW ("tune")).Disjoint (getRole exampleSplitW ("test"))) ∧
    (getRole exampleSplitW ("train")).length + (getRole exampleSplitW ("tune")).length +
      (getRole exampleSplitW ("test")).length = (pool 6 [2, 5]).length) :=
  C3_partition_sizes.1 6 (1/2) (1/4) (1/4) [2, 5] 3 exampleSplitW (by decide)

/-- C6: `train_tune_test` fails with `InvalidFractions` exactly when the three
fractions do not sum to one or one of them is negative (fractions are modelled
as exact rationals, so the floating tolerance is exact); a zero fraction is
accepted and the corresponding role is omitted from the output Split. -/
theorem C6_invalid_fractions :
    (∀ (n : Nat) (tr tu te : ℚ) (w : List Nat) (rs : Nat),
      train_tune_test n tr tu te w rs = .error .InvalidFractions ↔
        (tr + tu + te ≠ 1 ∨ tr < 0 ∨ tu < 0 ∨ te < 0)) ∧
    (∃ sp, train_tune_test 10 (4/5) (1/5) 0 [] 7 = .ok sp ∧
      ("test") ∉ roleKeys sp ∧ getRole sp ("test") = []) := by
  refine ⟨fun n tr tu te w rs => ttt_error_iff n tr tu te w rs, ?_⟩
  · exact ⟨[("tune", [0, 7]), ("train", [5, 3, 4, 2, 1, 6, 8, 9])],
      by decide, by decide, by decide⟩

/-- C10: with the same seed and no withholding, the supertest sample and the
tune slice of `train_tune_test` are prefixes of the same seeded permutation of
the universe, so for any supertest fraction at most the tune fraction every
supertest member also lies in the tune Index Set — a withheld supertest set is
not disjoint from an un-withheld split made with the same seed. -/
theorem C10_supertest_in_tune (n : Nat) (f tr tu te : ℚ) (rs : Nat) (sp : Split)
    (_hf : 0 ≤ f) (hftu : f ≤ tu)
    (h : train_tune_test n tr tu te [] rs = .ok sp) :
    ∀ x ∈ supertest n f rs, x ∈ getRole sp ("tune") := by
  obtain ⟨-, htun, -, -⟩ := ttt_ok_roles n tr tu te [] rs sp h
  intro x hx
  rw [htun, tuneIdxs, permOf, pool_nil]
  rw [supertest] at hx
  have hnt : nTuneOf n [] tu = roundNat (tu * n) := by
    rw [nTuneOf, pool_nil, List.length_range]
  have hmono : roundNat (f * n) ≤ nTuneOf n [] tu := by
    rw [hnt]
    exact roundNat_mono (mul_le_mul_of_nonneg_right hftu (Nat.cast_nonneg n))
  have heq : (shuffle (rngOfSeed rs) (List.range n)).take (roundNat (f * n))
      = ((shuffle (rngOfSeed rs) (List.range n)).take
          (nTuneOf n [] tu)).take (roundNat (f * n)) := by
    rw [List.take_take, min_eq_left hmono]
  rw [heq] at hx
  exact List.take_subset _ _ hx

/-- C10 witness: with seed 12 over n = 10, the supertest sample of fraction
1/5 is contained in the tune role of the un-withheld 2/5, 2/5, 1/5 split. -/
theorem C10_supertest_in_tune_witness :
    3 ∈ getRole exampleSplit10 ("tune") ∧ 7 ∈ getRole exampleSplit10 ("tune") :=
  ⟨C10_supertest_in_tune 10 (1/5) (2/5) (2/5) (1/5) 12 exampleSplit10
      (by norm_num) (by norm_num) (by decide) 3 (by decide),
    C10_supertest_in_tune 10 (1/5) (2/5) (2/5) (1/5) 12 exampleSplit10
      (by norm_num) (by norm_num) (by decide) 7 (by decide)⟩

/-- C4: for a fixed seed, two `reduced_train_size` calls that differ only in
the replicate count (both at least one) produce byte-identical shared
tune/test/stest roles in every replicate, and identical Splits — in particular
identical train Index Sets — for the first min of the two replicate counts. -/
theorem C4_reduced_reps (n : Nat) (tu te tp : ℚ) (a b : Nat) (w : List Nat)
    (rs : Nat) (_ha : 1 ≤ a) (_hb : 1 ≤ b) :
    (reduced_train_size n tu te tp a w rs).take (min a b)
        = (reduced_train_size n tu te tp b w rs).take (min a b) ∧
      ∀ sp ∈ reduced_train_size n tu te tp a w rs,
        getRole sp ("tune") = tuneIdxs n w tu rs ∧
        getRole sp ("test") = testIdxs n w tu te rs ∧
        getRole sp ("stest") = w := by
  constructor
  · rw [reduced_train_size, reduced_train_size, ← List.map_take, ← List.map_take,
      List.take_range (min a b) a, List.take_range (min a b) b,
      min_eq_left (min_le_left a b), min_eq_left (min_le_right a b)]
  · intro sp hsp
    rw [reduced_train_size] at hsp
    obtain ⟨i, -, rfl⟩ := List.mem_map.mp hsp
    refine ⟨?_, ?_, ?_⟩
    · rw [getRole_append_of_ne _ _ _ _ (by decide), getRole_shared_tune]
    · rw [getRole_append_of_ne _ _ _ _ (by decide), getRole_shared_test]
    · rw [getRole_append_of_ne _ _ _ _ (by decide), getRole_shared_stest]

/-- C4 witness: replicate counts 1 and 2 over n = 6, fractions 1/6, 1/6,
train proportion 1/2, seed 0. -/
theorem C4_reduced_reps_witness :
    (reduced_train_size 6 (1/6) (1/6) (1/2) 1 [] 0).take (min 1 2)
        = (reduced_train_size 6 (1/6) (1/6) (1/2) 2 [] 0).take (min 1 2) ∧
      ∀ sp ∈ reduced_train_size 6 (1/6) (1/6) (1/2) 1 [] 0,
        getRole sp ("tune") = tuneIdxs 6 [] (1/6) 0 ∧
        getRole sp ("test") = testIdxs 6 [] (1/6) (1/6) 0 ∧
        getRole sp ("stest") = [] :=
  C4_reduced_reps 6 (1/6) (1/6) (1/2) 1 2 [] 0 (by decide) (by decide)

theorem filterMap_trainFileOf_persistSplit (sp : Split) :
    (persistSplit sp).filterMap trainFileOf = [] := by
  rw [List.filterMap_eq_nil_iff]
  intro kv hkv
  rw [persistSplit] at hkv
  obtain ⟨kv0, -, rfl⟩ := List.mem_map.mp hkv
  rfl

theorem filterMap_roleFileOf_persistSplit (sp : Split) :
    (persistSplit sp).filterMap roleFileOf = sp := by
  induction sp with
  | nil => rfl
  | cons kv rest ih =>
    obtain ⟨k, v⟩ := kv
    have hstep : persistSplit ((k, v) :: rest)
        = (FKey.role k, serializeIdxs v) :: persistSplit rest := rfl
    rw [hstep, List.filterMap_cons]
    simp only [roleFileOf, parseIdxs_serializeIdxs, ih]

/-- C5: loading a persisted standard split (in whatever order the filesystem
lists its role files) reconstructs a Split in which every role's Index Set is
exactly the one saved; a persisted supertest file likewise parses back to
exactly the sampled Index Set. -/
theorem C5_roundtrip :
    (∀ (n : Nat) (tr tu te : ℚ) (w : List Nat) (rs : Nat) (sp : Split)
        (listing : DirListing),
      train_tune_test n tr tu te w rs = .ok sp →
      listing.Perm (persistSplit sp) →
      ∃ roles, load_split_dir listing = .single roles ∧
        ∀ r, getRole roles r = getRole sp r) ∧
    (∀ (n : Nat) (size : ℚ) (rs : Nat),
      parseIdxs (serializeIdxs (supertest n size rs)) = supertest n size rs) := by
  constructor
  · intro n tr tu te w rs sp listing h hperm
    have htrains : listing.filterMap trainFileOf = [] := by
      have hp := hperm.filterMap trainFileOf
      rw [filterMap_trainFileOf_persistSplit] at hp
      exact hp.eq_nil
    have hroles : (listing.filterMap roleFileOf).Perm sp := by
      have hp := hperm.filterMap roleFileOf
      rwa [filterMap_roleFileOf_persistSplit] at hp
    refine ⟨listing.filterMap roleFileOf, ?_, ?_⟩
    · rw [load_split_dir, htrains]
      rfl
    · intro r
      refine getRole_eq_of_perm hroles ?_ r
      have := ttt_ok_keys_nodup n tr tu te w rs sp h
      simpa [roleKeys] using this
  · intro n size rs
    exact parseIdxs_serializeIdxs _

/-- C5 witness: the round trip instantiated at n = 5, fractions 3/5, 1/5, 1/5,
seed 1, with the directory listed in reversed order. -/
theorem C5_roundtrip_witness :
    (∃ roles, load_split_dir ((persistSplit exampleSplit5).reverse)
        = .single roles ∧
      ∀ r, getRole roles r = getRole exampleSplit5 r) ∧
    parseIdxs (serializeIdxs (supertest 5 (1/5) 1)) = supertest 5 (1/5) 1 :=
  ⟨C5_roundtrip.1 5 (3/5) (1/5) (1/5) [] 1 exampleSplit5
      ((persistSplit exampleSplit5).reverse) (by decide) (by decide),
    C5_roundtrip.2 5 (1/5) 1⟩

theorem saveEntry_exists (st : Store) (k : PathKey) (v : Entry)
    (h : (lookupStore st k).isSome = true) :
    saveEntry st k false v = .error .AlreadyExists := by
  rw [saveEntry, if_pos ⟨h, rfl⟩]

theorem saveEntry_overwrite (st : Store) (k : PathKey) (v : Entry) :
    saveEntry st k true v
      = .ok ((k, v) :: st.filter (fun kv => decide (kv.1 ≠ k))) := by
  rw [saveEntry, if_neg]
  rintro ⟨-, hc⟩
  cases hc

theorem lookupStore_cons_self (k : PathKey) (v : Entry) (rest : Store) :
    lookupStore ((k, v) :: rest) k = some v := by
  simp [lookupStore]

/-- C7: a persistence call whose target path already exists and whose
overwrite flag is unset fails with AlreadyExists and leaves the backing store
unchanged — no partial write occurs; with the flag set, the path is replaced
by the newly computed content. -/
theorem C7_already_exists (st : Store) (n : Nat) (size tr tu te tp : ℚ)
    (k : Nat) (w : List Nat) (rs : Nat) :
    ((lookupStore st (supertest_key n size rs)).isSome = true →
      supertest_saved st false n size rs = (.error .AlreadyExists, st)) ∧
    ((lookupStore st (reduced_key tu te tp k w rs)).isSome = true →
      reduced_train_size_saved st false n tu te tp k w rs
        = (.error .AlreadyExists, st)) ∧
    (0 ≤ tr → 0 ≤ tu → 0 ≤ te → tr + tu + te = 1 →
      (lookupStore st (ttt_key tr tu te w rs)).isSome = true →
      train_tune_test_saved st false n tr tu te w rs
        = (.error .AlreadyExists, st)) ∧
    (lookupStore (supertest_saved st true n size rs).2 (supertest_key n size rs)
      = some (.file (serializeIdxs (supertest n size rs)))) ∧
    (lookupStore (reduced_train_size_saved st true n tu te tp k w rs).2
        (reduced_key tu te tp k w rs)
      = some (.dir (persistBatch n tu te tp k w rs))) ∧
    (0 ≤ tr → 0 ≤ tu → 0 ≤ te → tr + tu + te = 1 →
      ∃ sp, train_tune_test n tr tu te w rs = .ok sp ∧
        lookupStore (train_tune_test_saved st true n tr tu te w rs).2
          (ttt_key tr tu te w rs) = some (.dir (persistSplit sp))) := by
  refine ⟨?_, ?_, ?_, ?_, ?_, ?_⟩
  · intro h
    simp only [supertest_saved, saveEntry_exists st _ _ h]
  · intro h
    simp only [reduced_train_size_saved, saveEntry_exists st _ _ h]
  · intro htr htu hte hsum h
    have hok := ttt_ok_of_valid n tr tu te w rs htr htu hte hsum
    simp only [train_tune_test_saved, hok, saveEntry_exists st _ _ h]
  · simp only [supertest_saved, saveEntry_overwrite]
    exact lookupStore_cons_self _ _ _
  · simp only [reduced_train_size_saved, saveEntry_overwrite]
    exact lookupStore_cons_self _ _ _
  · intro htr htu hte hsum
    have hok := ttt_ok_of_valid n tr tu te w rs htr htu hte hsum
    refine ⟨_, hok, ?_⟩
    simp only [train_tune_test_saved, hok, saveEntry_overwrite]
    exact lookupStore_cons_self _ _ _

/-- C7 witness: the three persistence calls against a store already holding
their target paths (refusals leave the store intact), and the same calls with
the overwrite flag set (the paths are replaced). -/
theorem C7_already_exists_witness :
    supertest_saved exampleStore false 4 (1/2) 9
        = (.error .AlreadyExists, exampleStore) ∧
      reduced_train_size_saved exampleStore false 4 (1/4) (1/4) (1/2) 2 [0] 9
        = (.error .AlreadyExists, exampleStore) ∧
      train_tune_test_saved exampleStore false 4 (1/2) (1/4) (1/4) [0] 9
        = (.error .AlreadyExists, exampleStore) ∧
      lookupStore (supertest_saved exampleStore true 4 (1/2) 9).2
          (supertest_key 4 (1/2) 9)
        = some (.file (serializeIdxs (supertest 4 (1/2) 9))) ∧
      lookupStore
          (reduced_train_size_saved exampleStore true 4 (1/4) (1/4) (1/2) 2 [0] 9).2
          (reduced_key (1/4) (1/4) (1/2) 2 [0] 9)
        = some (.dir (persistBatch 4 (1/4) (1/4) (1/2) 2 [0] 9)) ∧
      (∃ sp, train_tune_test 4 (1/2) (1/4) (1/4) [0] 9 = .ok sp ∧
        lookupStore (train_tune_test_saved exampleStore true 4 (1/2) (1/4) (1/4) [0] 9).2
          (ttt_key (1/2) (1/4) (1/4) [0] 9) = some (.dir (persistSplit sp))) := by
  obtain ⟨h1, h2, h3, h4, h5, h6⟩ :=
    C7_already_exists exampleStore 4 (1/2) (1/2) (1/4) (1/4) (1/2) 2 [0] 9
  exact ⟨h1 (by decide), h2 (by decide),
    h3 (by decide) (by decide) (by decide) (by decide) (by decide),
    h4, h5, h6 (by decide) (by decide) (by decide) (by decide)⟩

theorem filterMap_trainFileOf_persistBatch (n : Nat) (tu te tp : ℚ) (k : Nat)
    (w : List Nat) (rs : Nat) :
    (persistBatch n tu te tp k w rs).filterMap trainFileOf
      = (List.range k).map (fun i => trainRep n w tu te tp rs i) := by
  rw [persistBatch, List.filterMap_append, filterMap_trainFileOf_persistSplit,
    List.nil_append, List.filterMap_map]
  have hfun : (trainFileOf ∘ fun i =>
        (FKey.trainRep i, serializeIdxs (trainRep n w tu te tp rs i)))
      = some ∘ fun i => trainRep n w tu te tp rs i := by
    funext i
    simp only [Function.comp_apply, trainFileOf, parseIdxs_serializeIdxs]
  rw [hfun, List.filterMap_eq_map]

theorem filterMap_roleFileOf_persistBatch (n : Nat) (tu te tp : ℚ) (k : Nat)
    (w : List Nat) (rs : Nat) :
    (persistBatch n tu te tp k w rs).filterMap roleFileOf
      = sharedRoles n w tu te rs := by
  rw [persistBatch, List.filterMap_append, filterMap_roleFileOf_persistSplit,
    List.filterMap_map]
  have hfun : (roleFileOf ∘ fun i =>
        (FKey.trainRep i, serializeIdxs (trainRep n w tu te tp rs i)))
      = fun _ => (none : Option (String × List Nat)) := by
    funext i
    rfl
  rw [hfun]
  simp

/-- C8 (amended): loading a persisted Split Batch (in whatever order the
filesystem lists the files) yields a batch whose multiset of train Index Sets
is exactly the saved one and whose tune/test/stest roles are the saved shared
roles in every replicate; the replicate ORDER, however, follows the listing
and need not match the saved order. -/
theorem C8_batch_load (n : Nat) (tu te tp : ℚ) (k : Nat) (w : List Nat)
    (rs : Nat) (listing : DirListing) (hk : 1 ≤ k)
    (hperm : listing.Perm (persistBatch n tu te tp k w rs)) :
    ∃ b, load_split_dir listing = .batch b ∧
      (b.map (fun sp => getRole sp ("train"))).Perm
        ((reduced_train_size n tu te tp k w rs).map
          (fun sp => getRole sp ("train"))) ∧
      ∀ sp ∈ b, getRole sp ("tune") = tuneIdxs n w tu rs ∧
        getRole sp ("test") = testIdxs n w tu te rs ∧
        getRole sp ("stest") = w := by
  have htrainsPerm : (listing.filterMap trainFileOf).Perm
      ((List.range k).map (fun i => trainRep n w tu te tp rs i)) := by
    have hp := hperm.filterMap trainFileOf
    rwa [filterMap_trainFileOf_persistBatch] at hp
  have hrolesPerm : (listing.filterMap roleFileOf).Perm
      (sharedRoles n w tu te rs) := by
    have hp := hperm.filterMap roleFileOf
    rwa [filterMap_roleFileOf_persistBatch] at hp
  have htrne : listing.filterMap trainFileOf ≠ [] := by
    intro hc
    have hlen := htrainsPerm.length_eq
    rw [hc] at hlen
    simp only [List.length_nil, List.length_map, List.length_range] at hlen
    omega
  have hload : load_split_dir listing
      = .batch ((listing.filterMap trainFileOf).map
          (fun t => ("train", t) :: listing.filterMap roleFileOf)) := by
    rw [load_split_dir, if_neg]
    simpa [List.isEmpty_iff] using htrne
  have hndshared : ((sharedRoles n w tu te rs).map Prod.fst).Nodup := by
    simpa [roleKeys] using roleKeys_shared_nodup n w tu te rs
  refine ⟨_, hload, ?_, ?_⟩
  · rw [List.map_map]
    have hfun : ((fun sp => getRole sp ("train")) ∘
          (fun t => ("train", t) :: listing.filterMap roleFileOf))
        = fun t => t := by
      funext t
      simp [getRole]
    rw [hfun, List.map_id']
    rw [reduced_train_size, List.map_map]
    have hfun2 : ((fun sp => getRole sp ("train")) ∘
          (fun i => sharedRoles n w tu te rs ++
            [("train", trainRep n w tu te tp rs i)]))
        = fun i => trainRep n w tu te tp rs i := by
      funext i
      exact getRole_shared_train_append n w tu te rs _
    rw [hfun2]
    exact htrainsPerm
  · intro sp hsp
    obtain ⟨t, -, rfl⟩ := List.mem_map.mp hsp
    have hdrop : ∀ r, r ≠ "train" →
        getRole (("train", t) :: listing.filterMap roleFileOf) r
          = getRole (listing.filterMap roleFileOf) r := by
      intro r hr
      have hstep : getRole (("train", t) :: listing.filterMap roleFileOf) r
          = if ("train" : String) = r then t
            else getRole (listing.filterMap roleFileOf) r := rfl
      rw [hstep, if_neg (fun hc => hr hc.symm)]
    refine ⟨?_, ?_, ?_⟩
    · rw [hdrop _ (by decide), getRole_eq_of_perm hrolesPerm hndshared,
        getRole_shared_tune]
    · rw [hdrop _ (by decide), getRole_eq_of_perm hrolesPerm hndshared,
        getRole_shared_test]
    · rw [hdrop _ (by decide), getRole_eq_of_perm hrolesPerm hndshared,
        getRole_shared_stest]

/-- C8 counterexample: the claim as stated — replicate i of the loaded batch
has the same train Index Set as replicate i of the saved batch — fails when the
filesystem lists the replicate files in another order: with n = 6, fractions
1/6, 1/6, train proportion 1/2, 2 replicates, seed 0 and the directory listed
in reverse, the first loaded replicate's train set is the second saved one. -/
theorem C8_batch_load_counterexample :
    getRole ((batchOf (load_split_dir
        ((persistBatch 6 (1/6) (1/6) (1/2) 2 [] 0).reverse))).getD 0 [])
        ("train")
      ≠ getRole ((reduced_train_size 6 (1/6) (1/6) (1/2) 2 [] 0).getD 0 [])
          ("train") := by
  decide

/-- C8 witness: the amended batch round trip instantiated at n = 6, fractions
1/6, 1/6, train proportion 1/2, 2 replicates, seed 0, identity listing. -/
theorem C8_batch_load_witness :
    ∃ b, load_split_dir (persistBatch 6 (1/6) (1/6) (1/2) 2 [] 0) = .batch b ∧
      (b.map (fun sp => getRole sp ("train"))).Perm
        ((reduced_train_size 6 (1/6) (1/6) (1/2) 2 [] 0).map
          (fun sp => getRole sp ("train"))) ∧
      ∀ sp ∈ b, getRole sp ("tune") = tuneIdxs 6 [] (1/6) 0 ∧
        getRole sp ("test") = testIdxs 6 [] (1/6) (1/6) 0 ∧
        getRole sp ("stest") = [] :=
  C8_batch_load 6 (1/6) (1/6) (1/2) 2 [] 0 _ (by decide) (List.Perm.refl _)

/-- C9 (amended): for any AAindex table of width 19, encoding a LIST of raw
sequences of a common positive length, or a list of mutation lists against a
nonempty wild type, yields a tensor of shape
(num_variants, sequence_length, feature_dim) with feature_dim the sum of the
per-scheme widths (21 for one-hot, 19 for AAindex, 40 combined); a SINGLE raw
sequence, however, comes back squeezed to (sequence_length, feature_dim). -/
theorem C9_encode_shapes (t : Char → List ℚ) (ht : ∀ c, (t c).length = 19)
    (schemes : List EncScheme) (hs : schemes ≠ []) :
    (∀ (ss : List (List Char)) (L : Nat), ss ≠ [] → 0 < L →
      (∀ s ∈ ss, s.length = L) →
      ndshape (encode t schemes (.seqs ss))
        = [ss.length, L, (schemes.map schemeWidth).sum]) ∧
    (∀ (vs : List (List Mutation)) (wt : List Char) (offset : Nat),
      vs ≠ [] → wt ≠ [] →
      ndshape (encode t schemes (.variants vs wt offset))
        = [vs.length, wt.length, (schemes.map schemeWidth).sum]) ∧
    (∀ s : List Char, s ≠ [] →
      ndshape (encode t schemes (.seq s))
        = [s.length, (schemes.map schemeWidth).sum]) ∧
    ([EncScheme.one_hot, EncScheme.aa_index].map schemeWidth).sum = 40 ∧
    ([EncScheme.one_hot].map schemeWidth).sum = 21 ∧
    ([EncScheme.aa_index].map schemeWidth).sum = 19 := by
  refine ⟨?_, ?_, ?_, by decide, by decide, by decide⟩
  · intro ss L hne hL hlen
    obtain ⟨s0, rest, rfl⟩ := List.exists_cons_of_ne_nil hne
    have hs0 : s0 ≠ [] := by
      intro hc
      have := hlen s0 (by simp)
      rw [hc] at this
      simp at this
      omega
    have hstep : encode t schemes (.seqs (s0 :: rest))
        = .arr (matArr (encodeSeq t schemes s0) ::
            rest.map (fun s => matArr (encodeSeq t schemes s))) := rfl
    rw [hstep, ndshape, ndshape_encodeSeq t ht schemes hs s0 hs0,
      hlen s0 (by simp), List.length_map]
    rfl
  · intro vs wt offset hne hwt
    obtain ⟨v0, rest, rfl⟩ := List.exists_cons_of_ne_nil hne
    have happ : ∀ ms : List Mutation, applyMuts offset wt ms ≠ [] := by
      intro ms hc
      have := applyMuts_length offset wt ms
      rw [hc] at this
      exact hwt (List.length_eq_zero.mp this.symm)
    have hstep : encode t schemes (.variants (v0 :: rest) wt offset)
        = .arr (matArr (encodeSeq t schemes (applyMuts offset wt v0)) ::
            rest.map (fun ms => matArr (encodeSeq t schemes (applyMuts offset wt ms)))) := rfl
    rw [hstep, ndshape, ndshape_encodeSeq t ht schemes hs _ (happ v0),
      applyMuts_length, List.length_map]
    rfl
  · intro s hne
    exact ndshape_encodeSeq t ht schemes hs s hne

/-- C9 witness: two length-2 sequences under the combined encoding come back
with shape (2, 2, 40). -/
theorem C9_encode_shapes_witness :
    ndshape (encode (fun _ => List.replicate 19 0)
        [EncScheme.one_hot, EncScheme.aa_index]
        (.seqs [['A', 'C'], ['G', 'K']])) = [2, 2, 40] := by
  have h := (C9_encode_shapes (fun _ => List.replicate 19 0) (fun _ => by simp)
      [EncScheme.one_hot, EncScheme.aa_index] (by decide)).1
      [['A', 'C'], ['G', 'K']] 2 (by decide) (by decide) (by decide)
  rw [h]
  decide

/-- C9 counterexample: the claim as stated — the returned value always has
shape (num_variants, sequence_length, feature_dim) — fails for a single raw
sequence: the notebook's 56-residue GB1 variant under one-hot encoding comes
back with shape (56, 21), not (1, 56, 21). -/
theorem C9_encode_shapes_counterexample :
    ndshape (encode (fun _ => List.replicate 19 0) [EncScheme.one_hot]
        (.seq (("MLYKLILNGKTLKGETTTEAVDAATAEKVFKQYANDNGVDGEWTYDDATKTFTVTE").toList)))
        = [56, 21] ∧
    ([56, 21] : List Nat) ≠ [1, 56, 21] :=
  ⟨by decide, by decide⟩

end Nn4dms
